import Mathlib

/-!
Verification of the scaffolding orchestration engine of
claude-guardrails-bootstrap: the preserved-region merger, the Fact Store
conflict policy, the workflow step machine with blocking/non-blocking
failures, the verification pass, and the three hook scripts shipped under
bootstrap/templates/hooks.

The repository describes the merger, discovery and workflow components in
procedure documents (bootstrap/procedures/*.md); definitions below embed
the behaviour those documents describe, with algorithmic detail that the
documents leave in prose modelled from the design specification.  The hook
scripts are real JavaScript and are embedded directly.
-/

namespace Guardrails

/-! ## Renderer/Merger: preserved regions

Modelled from the spec: a generated file is parsed into a region-indexed
document tree — literal text interleaved with named preserved regions
delimited by marker pairs (`USER_SECTION_START: name` / `USER_SECTION_END`
in 03-generate-claude-md.md).  Merging splices the destination file's
region content into the newly rendered content by region name. -/

/-- One chunk of a generated document: literal text, or a named preserved
region (marker pair) with its inner content. -/
inductive Chunk where
  | lit : String → Chunk
  | region : String → String → Chunk
deriving DecidableEq

/-- A generated document as a region-indexed tree (list of chunks). -/
abbrev Doc := List Chunk

/-- Names of the preserved regions of a document, in order. -/
def regionNames : Doc → List String
  | [] => []
  | Chunk.lit _ :: rest => regionNames rest
  | Chunk.region n _ :: rest => n :: regionNames rest

/-- Content of the first region with the given name, if any. -/
def lookupRegion : Doc → String → Option String
  | [], _ => none
  | Chunk.lit _ :: rest, n => lookupRegion rest n
  | Chunk.region m c :: rest, n => if m = n then some c else lookupRegion rest n

/-- Whether the document contains at least one preserved region. -/
def hasRegions (d : Doc) : Bool := !(regionNames d).isEmpty

/-- The invariant of the data model: a region name appears at most once
per file. -/
def wfDoc (d : Doc) : Prop := (regionNames d).Nodup

instance (d : Doc) : Decidable (wfDoc d) := by
  unfold wfDoc
  infer_instance

/-- Splice step of the merge: a rendered region whose name also occurs in
the existing (destination) file takes the destination's content
("If user has edited these sections, keep their content"). -/
def spliceChunk (ex : Doc) : Chunk → Chunk
  | Chunk.lit s => Chunk.lit s
  | Chunk.region n c =>
    match lookupRegion ex n with
    | some u => Chunk.region n u
    | none => Chunk.region n c

/-- Whether a chunk of the existing file is a region absent from the newly
rendered content (such regions are appended at the end: "Never delete:
user's custom content"). -/
def keepExtra (newDoc : Doc) : Chunk → Bool
  | Chunk.lit _ => false
  | Chunk.region n _ => !(decide (n ∈ regionNames newDoc))

/-- Regions of the existing file that the newly rendered content no longer
mentions. -/
def extraRegions (ex newDoc : Doc) : Doc := ex.filter (keepExtra newDoc)

/-- The merge strategy.  Modelled from the spec: (1) no existing file →
write the new content verbatim; (2) existing file without preserved
regions → overwrite entirely; (3) existing file with regions → splice the
existing file's region content into the new content at the matching region
names, and append regions the template no longer produces. -/
def mergeDocs : Option Doc → Doc → Doc
  | none, newDoc => newDoc
  | some ex, newDoc =>
    if hasRegions ex then newDoc.map (spliceChunk ex) ++ extraRegions ex newDoc
    else newDoc

/-! ### Merge lemmas -/

theorem lookupRegion_append (a b : Doc) (n : String) :
    lookupRegion (a ++ b) n =
      match lookupRegion a n with
      | some c => some c
      | none => lookupRegion b n := by
  induction a with
  | nil => simp [lookupRegion]
  | cons ch rest ih =>
    cases ch with
    | lit s => simpa [lookupRegion] using ih
    | region m c =>
      by_cases h : m = n
      · simp [lookupRegion, h]
      · simpa [lookupRegion, h] using ih

theorem mem_regionNames_of_lookup {d : Doc} {n : String} {u : String}
    (h : lookupRegion d n = some u) : n ∈ regionNames d := by
  induction d with
  | nil => simp [lookupRegion] at h
  | cons ch rest ih =>
    cases ch with
    | lit s => exact ih (by simpa [lookupRegion] using h)
    | region m c =>
      by_cases hm : m = n
      · simp [regionNames, hm]
      · simp only [lookupRegion, hm, if_false] at h
        simp [regionNames, ih h]

theorem lookup_eq_some_of_mem {d : Doc} {n : String}
    (h : n ∈ regionNames d) : ∃ u, lookupRegion d n = some u := by
  induction d with
  | nil => simp [regionNames] at h
  | cons ch rest ih =>
    cases ch with
    | lit s =>
      simp only [regionNames] at h
      simpa [lookupRegion] using ih h
    | region m c =>
      by_cases hm : m = n
      · exact ⟨c, by simp [lookupRegion, hm]⟩
      · simp only [regionNames, List.mem_cons] at h
        rcases h with h | h
        · exact absurd h.symm hm
        · simpa [lookupRegion, hm] using ih h

theorem lookup_map_splice_some {ex : Doc} {n u : String}
    (h : lookupRegion ex n = some u) (l : Doc) :
    lookupRegion (l.map (spliceChunk ex)) n =
      match lookupRegion l n with
      | some _ => some u
      | none => none := by
  induction l with
  | nil => simp [lookupRegion]
  | cons ch rest ih =>
    cases ch with
    | lit s => simpa [lookupRegion, spliceChunk] using ih
    | region m c =>
      by_cases hm : m = n
      · subst hm
        simp [lookupRegion, spliceChunk, h]
      · cases hlook : lookupRegion ex m with
        | none => simpa [lookupRegion, spliceChunk, hlook, hm] using ih
        | some v => simpa [lookupRegion, spliceChunk, hlook, hm] using ih

theorem lookup_map_splice_none {ex : Doc} {n : String}
    (h : lookupRegion ex n = none) (l : Doc) :
    lookupRegion (l.map (spliceChunk ex)) n = lookupRegion l n := by
  induction l with
  | nil => simp [lookupRegion]
  | cons ch rest ih =>
    cases ch with
    | lit s => simpa [lookupRegion, spliceChunk] using ih
    | region m c =>
      by_cases hm : m = n
      · subst hm
        simp [lookupRegion, spliceChunk, h]
      · cases hlook : lookupRegion ex m with
        | none => simpa [lookupRegion, spliceChunk, hlook, hm] using ih
        | some v => simpa [lookupRegion, spliceChunk, hlook, hm] using ih

theorem lookup_extraRegions {newDoc : Doc} {n : String}
    (h : n ∉ regionNames newDoc) (ex : Doc) :
    lookupRegion (extraRegions ex newDoc) n = lookupRegion ex n := by
  induction ex with
  | nil => simp [extraRegions, lookupRegion]
  | cons ch rest ih =>
    cases ch with
    | lit s => simpa [extraRegions, List.filter, keepExtra, lookupRegion] using ih
    | region m c =>
      by_cases hm : m = n
      · subst hm
        simp [extraRegions, List.filter, keepExtra, h, lookupRegion]
      · by_cases hmem : m ∈ regionNames newDoc
        · simpa [extraRegions, List.filter, keepExtra, hmem, lookupRegion, hm] using ih
        · simpa [extraRegions, List.filter, keepExtra, hmem, lookupRegion, hm] using ih

theorem regionNames_map_splice (ex l : Doc) :
    regionNames (l.map (spliceChunk ex)) = regionNames l := by
  induction l with
  | nil => rfl
  | cons ch rest ih =>
    cases ch with
    | lit s => simpa [regionNames, spliceChunk] using ih
    | region m c =>
      cases hlook : lookupRegion ex m with
      | none => simpa [regionNames, spliceChunk, hlook] using ih
      | some v => simpa [regionNames, spliceChunk, hlook] using ih

/-- C1 (claim theorem below builds on this): merging keeps the destination
file's content for every region name present in the destination. -/
theorem lookup_mergeDocs_of_dest {ex new : Doc} {n u : String}
    (h : lookupRegion ex n = some u) :
    lookupRegion (mergeDocs (some ex) new) n = some u := by
  have hmem : n ∈ regionNames ex := mem_regionNames_of_lookup h
  have hne : (regionNames ex).isEmpty = false := by
    cases hnames : regionNames ex with
    | nil => rw [hnames] at hmem; simp at hmem
    | cons a l => simp [List.isEmpty]
  have hreg : hasRegions ex = true := by simp [hasRegions, hne]
  rw [mergeDocs, if_pos hreg, lookupRegion_append]
  rw [lookup_map_splice_some h new]
  cases hn : lookupRegion new n with
  | some c => simp
  | none =>
    have hnot : n ∉ regionNames new := by
      intro hmemn
      rcases lookup_eq_some_of_mem hmemn with ⟨v, hv⟩
      rw [hn] at hv
      exact Option.noConfusion hv
    simpa [lookup_extraRegions hnot ex] using h

theorem mem_regionNames_of_chunk {d : Doc} {n c : String}
    (h : Chunk.region n c ∈ d) : n ∈ regionNames d := by
  induction d with
  | nil => simp at h
  | cons ch rest ih =>
    cases ch with
    | lit s =>
      have h' : Chunk.region n c ∈ rest := by simpa using h
      simpa [regionNames] using ih h'
    | region m u =>
      rcases List.mem_cons.mp h with h1 | h1
      · cases h1
        simp [regionNames]
      · simp only [regionNames, List.mem_cons]
        exact Or.inr (ih h1)

/-- In a well-formed document the (unique) region named `n` looks up to
its own content. -/
theorem lookup_self_of_wf {d : Doc} (hwf : wfDoc d) {n c : String}
    (h : Chunk.region n c ∈ d) : lookupRegion d n = some c := by
  induction d with
  | nil => simp at h
  | cons ch rest ih =>
    cases ch with
    | lit s =>
      have h' : Chunk.region n c ∈ rest := by
        rcases List.mem_cons.mp h with h | h
        · exact absurd h (by simp)
        · exact h
      exact (by simpa [lookupRegion] using ih (by simpa [wfDoc, regionNames] using hwf) h')
    | region m u =>
      rcases List.mem_cons.mp h with h | h
      · cases h
        simp [lookupRegion]
      · have hnames : m ∉ regionNames rest ∧ (regionNames rest).Nodup := by
          simpa [wfDoc, regionNames] using hwf
        have hmn : m ≠ n := by
          intro he
          exact hnames.1 (he ▸ mem_regionNames_of_chunk h)
        simpa [lookupRegion, hmn] using ih hnames.2 h

theorem map_splice_eq_self {d : Doc} (l : Doc)
    (h : ∀ n c, Chunk.region n c ∈ l → lookupRegion d n = some c) :
    l.map (spliceChunk d) = l := by
  induction l with
  | nil => rfl
  | cons ch rest ih =>
    cases ch with
    | lit s =>
      simpa [spliceChunk] using ih (fun n c hm => h n c (List.mem_cons_of_mem _ hm))
    | region m c =>
      have hm := h m c (by simp)
      simp only [List.map_cons, spliceChunk, hm]
      exact congrArg _ (ih (fun n c hm' => h n c (List.mem_cons_of_mem _ hm')))

theorem extraRegions_eq_nil {newDoc : Doc} (l : Doc)
    (h : ∀ m ∈ regionNames l, m ∈ regionNames newDoc) :
    extraRegions l newDoc = [] := by
  induction l with
  | nil => rfl
  | cons ch rest ih =>
    cases ch with
    | lit s =>
      simpa [extraRegions, List.filter, keepExtra] using
        ih (fun m hm => h m (by simpa [regionNames] using hm))
    | region m c =>
      have hmem : m ∈ regionNames newDoc := h m (by simp [regionNames])
      have := ih (fun a ha => h a (by simp [regionNames, ha]))
      simpa [extraRegions, List.filter, keepExtra, hmem] using this

theorem regionNames_append (a b : Doc) :
    regionNames (a ++ b) = regionNames a ++ regionNames b := by
  induction a with
  | nil => rfl
  | cons ch rest ih =>
    cases ch with
    | lit s => simpa [regionNames] using ih
    | region m c => simpa [regionNames] using ih

theorem extraRegions_append (a b newDoc : Doc) :
    extraRegions (a ++ b) newDoc =
      extraRegions a newDoc ++ extraRegions b newDoc := by
  simp [extraRegions, List.filter_append]

theorem extraRegions_idem (ex newDoc : Doc) :
    extraRegions (extraRegions ex newDoc) newDoc = extraRegions ex newDoc := by
  simp [extraRegions, List.filter_filter]

/-- `mergeDocs (some d) d = d` on a well-formed document (shared by both
ends of the idempotence argument). -/
theorem mergeDocs_self {d : Doc} (hwf : wfDoc d) : mergeDocs (some d) d = d := by
  by_cases hreg : hasRegions d = true
  · rw [mergeDocs, if_pos hreg]
    rw [map_splice_eq_self d (fun n c hm => lookup_self_of_wf hwf hm)]
    rw [extraRegions_eq_nil d (fun m hm => hm)]
    simp
  · rw [mergeDocs, if_neg hreg]

theorem hasRegions_eq_true_iff (d : Doc) : hasRegions d = true ↔ regionNames d ≠ [] := by
  cases h : regionNames d <;> simp [hasRegions, h]

theorem regionNames_extra_of_no_new {newDoc : Doc} (hnew : regionNames newDoc = [])
    (ex : Doc) : regionNames (extraRegions ex newDoc) = regionNames ex := by
  induction ex with
  | nil => rfl
  | cons ch rest ih =>
    cases ch with
    | lit s => simpa [extraRegions, List.filter, keepExtra, regionNames] using ih
    | region m c =>
      have hm : m ∉ regionNames newDoc := by rw [hnew]; simp
      simpa [extraRegions, List.filter, keepExtra, hm, regionNames] using ih

theorem hasRegions_merge {ex newDoc : Doc} (hreg : hasRegions ex = true) :
    hasRegions (newDoc.map (spliceChunk ex) ++ extraRegions ex newDoc) = true := by
  rw [hasRegions_eq_true_iff] at hreg ⊢
  rw [regionNames_append, regionNames_map_splice]
  cases hnew : regionNames newDoc with
  | cons a l => simp
  | nil =>
    rw [regionNames_extra_of_no_new hnew]
    simpa using hreg

/-- Chunk-wise agreement of splicing against the merged output and
against the original destination. -/
theorem map_splice_merge {ex newDoc : Doc} (l : Doc)
    (h : ∀ n c, Chunk.region n c ∈ l → lookupRegion newDoc n = some c) :
    l.map (spliceChunk (newDoc.map (spliceChunk ex) ++ extraRegions ex newDoc)) =
      l.map (spliceChunk ex) := by
  induction l with
  | nil => rfl
  | cons ch rest ih =>
    have ihr := ih (fun n c hm => h n c (List.mem_cons_of_mem _ hm))
    cases ch with
    | lit s => simpa [spliceChunk] using ihr
    | region m c =>
      have hm := h m c (by simp)
      have hlookM :
          lookupRegion (newDoc.map (spliceChunk ex) ++ extraRegions ex newDoc) m =
            match lookupRegion ex m with
            | some u => some u
            | none => some c := by
        rw [lookupRegion_append]
        cases hex : lookupRegion ex m with
        | some u => rw [lookup_map_splice_some hex newDoc, hm]
        | none => rw [lookup_map_splice_none hex newDoc, hm]
      cases hex : lookupRegion ex m with
      | some u =>
        rw [hex] at hlookM
        simp only [List.map_cons, spliceChunk, hlookM, hex]
        exact congrArg _ ihr
      | none =>
        rw [hex] at hlookM
        simp only [List.map_cons, spliceChunk, hlookM, hex]
        exact congrArg _ ihr

theorem extraRegions_merge (ex newDoc : Doc) :
    extraRegions (newDoc.map (spliceChunk ex) ++ extraRegions ex newDoc) newDoc =
      extraRegions ex newDoc := by
  rw [extraRegions_append]
  rw [extraRegions_eq_nil (newDoc.map (spliceChunk ex))
    (fun m hm => by rwa [regionNames_map_splice] at hm)]
  rw [extraRegions_idem]
  rfl

/-- C6 core: merging the same new content into a previous merge output a
second time reproduces the first merge's output. -/
theorem mergeDocs_idem (ex : Option Doc) (newDoc : Doc) (hwf : wfDoc newDoc) :
    mergeDocs (some (mergeDocs ex newDoc)) newDoc = mergeDocs ex newDoc := by
  cases ex with
  | none => exact mergeDocs_self hwf
  | some e =>
    by_cases hreg : hasRegions e = true
    · have hM : mergeDocs (some e) newDoc =
          newDoc.map (spliceChunk e) ++ extraRegions e newDoc := by
        rw [mergeDocs, if_pos hreg]
      rw [hM]
      have hMreg := @hasRegions_merge e newDoc hreg
      rw [mergeDocs, if_pos hMreg]
      rw [map_splice_merge newDoc (fun n c hm => lookup_self_of_wf hwf hm)]
      rw [extraRegions_merge]
    · have hM : mergeDocs (some e) newDoc = newDoc := by
        rw [mergeDocs, if_neg hreg]
      rw [hM]
      exact mergeDocs_self hwf

/-- C1: for every merge of newly rendered content into an existing
destination file and every preserved-region name present in the
destination, the merged file's content for that region equals the
destination's (user's) content for that region, regardless of what the
template rendered for that span — a user edit inside a named preserved
region survives re-generation unchanged. -/
theorem claim_c1_region_preservation (ex newDoc : Doc) (n u : String)
    (h : lookupRegion ex n = some u) :
    lookupRegion (mergeDocs (some ex) newDoc) n = some u :=
  lookup_mergeDocs_of_dest h

theorem claim_c1_region_preservation_witness :
    lookupRegion [Chunk.region "notes" "do not remove X"] "notes" =
        some "do not remove X" ∧
      lookupRegion
          (mergeDocs (some [Chunk.region "notes" "do not remove X"])
            [Chunk.lit "# Title", Chunk.region "notes" "template text"]) "notes" =
        some "do not remove X" :=
  ⟨by decide,
   claim_c1_region_preservation [Chunk.region "notes" "do not remove X"]
     [Chunk.lit "# Title", Chunk.region "notes" "template text"]
     "notes" "do not remove X" (by decide)⟩

/-- C6: merging is idempotent on its own output — merging the same new
content a second time into the result of the first merge yields a result
identical to the first merge's output (region names appear at most once
per file, the data-model invariant). -/
theorem claim_c6_merge_idempotent (ex : Option Doc) (newDoc : Doc)
    (hwf : wfDoc newDoc) :
    mergeDocs (some (mergeDocs ex newDoc)) newDoc = mergeDocs ex newDoc :=
  mergeDocs_idem ex newDoc hwf

theorem claim_c6_merge_idempotent_witness :
    wfDoc [Chunk.lit "# Doc", Chunk.region "r1" "fresh", Chunk.lit "tail"] ∧
      mergeDocs
          (some (mergeDocs (some [Chunk.region "r1" "user text", Chunk.region "old" "keep me"])
            [Chunk.lit "# Doc", Chunk.region "r1" "fresh", Chunk.lit "tail"]))
          [Chunk.lit "# Doc", Chunk.region "r1" "fresh", Chunk.lit "tail"] =
        mergeDocs (some [Chunk.region "r1" "user text", Chunk.region "old" "keep me"])
          [Chunk.lit "# Doc", Chunk.region "r1" "fresh", Chunk.lit "tail"] :=
  ⟨by decide,
   claim_c6_merge_idempotent
     (some [Chunk.region "r1" "user text", Chunk.region "old" "keep me"])
     [Chunk.lit "# Doc", Chunk.region "r1" "fresh", Chunk.lit "tail"] (by decide)⟩

/-! ## Fact Store and Discovery Engine

Modelled from the spec: a Fact carries a key, a value, a confidence level
and a provenance string.  Detectors append facts in registration order;
when two detectors produce the same key the store keeps the
higher-confidence value, and ties keep the first writer. -/

/-- Fact values: string, bool, list of strings, or null
(00-analyze-project.md stores strings, booleans and lists in
analysis.json). -/
inductive FactValue where
  | str : String → FactValue
  | bool : Bool → FactValue
  | list : List String → FactValue
  | null : FactValue
deriving DecidableEq

/-- Confidence levels of discovered facts (High/Medium/Low in
00-analyze-project.md; `default` for language-default fallbacks such as
"Command Discovery Failed → use language defaults, source default"). -/
inductive Confidence where
  | default : Confidence
  | low : Confidence
  | medium : Confidence
  | high : Confidence
deriving DecidableEq

/-- Numeric rank of a confidence level, for comparisons. -/
def Confidence.rank : Confidence → Nat
  | .default => 0
  | .low => 1
  | .medium => 2
  | .high => 3

/-- A discovered fact. -/
structure Fact where
  key : String
  value : FactValue
  confidence : Confidence
  source : String
deriving DecidableEq

/-- Write one fact into the store.  Modelled from the spec: "when two
detectors produce the same key, keep the higher-confidence value; ties
keep the first writer". -/
def addFact (store : List Fact) (f : Fact) : List Fact :=
  match store.find? (fun g => g.key == f.key) with
  | none => store ++ [f]
  | some g =>
    if g.confidence.rank < f.confidence.rank then
      store.map (fun h => if h.key = f.key then f else h)
    else store

/-- Populate the Fact Store by folding the facts produced by the ordered
detector list over the empty store. -/
def runFacts (fs : List Fact) : List Fact := fs.foldl addFact []

/-- The fact stored under a key. -/
def lookupFact (store : List Fact) (k : String) : Option Fact :=
  store.find? (fun g => g.key == k)

/-- The fact the conflict policy should select among the facts written for
one key: higher confidence wins, ties keep the earlier writer. -/
def bestFact : Option Fact → Fact → Option Fact
  | none, f => some f
  | some g, f => if g.confidence.rank < f.confidence.rank then some f else some g

/-- The policy-selected fact for a key over a write sequence. -/
def winner (fs : List Fact) (k : String) : Option Fact :=
  (fs.filter (fun f => f.key == k)).foldl bestFact none

/-! ### Fact Store lemmas -/

theorem find?_key_append_single (s : List Fact) (f : Fact) (k : String)
    (h : (f.key == k) = false) :
    (s ++ [f]).find? (fun g => g.key == k) = s.find? (fun g => g.key == k) := by
  induction s with
  | nil => simp [List.find?, h]
  | cons a t ih =>
    cases hak : (a.key == k) with
    | true => simp [List.find?, hak]
    | false => simp [List.find?, hak, ih]

theorem find?_append_single_of_none (s : List Fact) (f : Fact)
    (hfind : s.find? (fun g => g.key == f.key) = none) :
    (s ++ [f]).find? (fun g => g.key == f.key) = some f := by
  induction s with
  | nil => simp [List.find?]
  | cons a t ih =>
    cases haf : (a.key == f.key) with
    | true => simp [List.find?, haf] at hfind
    | false =>
      simp only [List.find?, haf] at hfind
      simp [List.find?, haf, ih hfind]

theorem find?_key_map_replace_ne (s : List Fact) (f : Fact) (k : String)
    (hfk : (f.key == k) = false) :
    ((s.map (fun h => if h.key = f.key then f else h)).find? (fun g => g.key == k)) =
      s.find? (fun g => g.key == k) := by
  induction s with
  | nil => rfl
  | cons a t ih =>
    rw [List.map_cons]
    by_cases haf : a.key = f.key
    · have hak : (a.key == k) = false := by rw [haf]; exact hfk
      rw [if_pos haf,
        List.find?_cons_of_neg (p := fun (g : Fact) => g.key == k) _ (by simp [hfk]),
        List.find?_cons_of_neg (p := fun (g : Fact) => g.key == k) _ (by simp [hak])]
      exact ih
    · rw [if_neg haf]
      cases hak : (a.key == k) with
      | true =>
        rw [List.find?_cons_of_pos (p := fun (g : Fact) => g.key == k) _ hak,
          List.find?_cons_of_pos (p := fun (g : Fact) => g.key == k) _ hak]
      | false =>
        rw [List.find?_cons_of_neg (p := fun (g : Fact) => g.key == k) _ (by simp [hak]),
          List.find?_cons_of_neg (p := fun (g : Fact) => g.key == k) _ (by simp [hak])]
        exact ih

theorem find?_key_map_replace_eq (s : List Fact) (f : Fact) {g : Fact}
    (hfind : s.find? (fun x => x.key == f.key) = some g) :
    ((s.map (fun h => if h.key = f.key then f else h)).find? (fun x => x.key == f.key)) =
      some f := by
  induction s with
  | nil => simp [List.find?] at hfind
  | cons a t ih =>
    rw [List.map_cons]
    by_cases haf : a.key = f.key
    · rw [if_pos haf, List.find?_cons_of_pos (p := fun (x : Fact) => x.key == f.key) _ (by simp)]
    · rw [if_neg haf, List.find?_cons_of_neg (p := fun (x : Fact) => x.key == f.key) _ (by simp [haf])]
      rw [List.find?_cons_of_neg (p := fun (x : Fact) => x.key == f.key) _ (by simp [haf])] at hfind
      exact ih hfind

theorem lookupFact_addFact_ne {s : List Fact} {f : Fact} {k : String}
    (h : f.key ≠ k) : lookupFact (addFact s f) k = lookupFact s k := by
  have hfk : (f.key == k) = false := by simpa using h
  unfold addFact
  cases hfind : s.find? (fun g => g.key == f.key) with
  | none => exact find?_key_append_single s f k hfk
  | some g =>
    show lookupFact
        (if g.confidence.rank < f.confidence.rank then
          s.map (fun h => if h.key = f.key then f else h)
        else s) k = lookupFact s k
    by_cases hrank : g.confidence.rank < f.confidence.rank
    · rw [if_pos hrank]
      exact find?_key_map_replace_ne s f k hfk
    · rw [if_neg hrank]

theorem lookupFact_addFact_eq {s : List Fact} {f : Fact} {k : String}
    (h : f.key = k) : lookupFact (addFact s f) k = bestFact (lookupFact s k) f := by
  subst h
  unfold addFact
  cases hfind : s.find? (fun g => g.key == f.key) with
  | none =>
    have hl : lookupFact s f.key = none := hfind
    rw [hl]
    exact find?_append_single_of_none s f hfind
  | some g =>
    have hl : lookupFact s f.key = some g := hfind
    rw [hl]
    show lookupFact
        (if g.confidence.rank < f.confidence.rank then
          s.map (fun h => if h.key = f.key then f else h)
        else s) f.key = bestFact (some g) f
    by_cases hrank : g.confidence.rank < f.confidence.rank
    · rw [if_pos hrank, show bestFact (some g) f = some f by simp [bestFact, hrank]]
      exact find?_key_map_replace_eq s f hfind
    · rw [if_neg hrank, show bestFact (some g) f = some g by simp [bestFact, hrank]]
      exact hl

theorem lookupFact_foldl (fs : List Fact) (s : List Fact) (k : String) :
    lookupFact (fs.foldl addFact s) k =
      (fs.filter (fun f => f.key == k)).foldl bestFact (lookupFact s k) := by
  induction fs generalizing s with
  | nil => rfl
  | cons f rest ih =>
    rw [List.foldl_cons, ih (addFact s f)]
    by_cases hk : f.key = k
    · have hb : (f.key == k) = true := by simpa using hk
      rw [lookupFact_addFact_eq hk]
      simp [List.filter_cons, hb]
    · have hb : (f.key == k) = false := by simpa using hk
      rw [lookupFact_addFact_ne hk]
      simp [List.filter_cons, hb]

theorem lookupFact_runFacts (fs : List Fact) (k : String) :
    lookupFact (runFacts fs) k = winner fs k := by
  unfold runFacts winner
  rw [lookupFact_foldl]
  rfl

theorem foldl_bestFact_max {l : List Fact} {acc : Option Fact} {f : Fact}
    (h : l.foldl bestFact acc = some f) :
    (∀ g ∈ l, g.confidence.rank ≤ f.confidence.rank) ∧
      (∀ g, acc = some g → g.confidence.rank ≤ f.confidence.rank) := by
  induction l generalizing acc with
  | nil =>
    refine ⟨by simp, fun g hg => ?_⟩
    simp only [List.foldl_nil] at h
    rw [hg] at h
    cases h
    exact le_refl _
  | cons a t ih =>
    simp only [List.foldl_cons] at h
    rcases ih h with ⟨htail, hacc⟩
    have harank : a.confidence.rank ≤ f.confidence.rank := by
      cases hacc2 : acc with
      | none => exact hacc a (by simp [bestFact, hacc2])
      | some g0 =>
        by_cases hlt : g0.confidence.rank < a.confidence.rank
        · exact hacc a (by simp [bestFact, hacc2, hlt])
        · have hg0 : g0.confidence.rank ≤ f.confidence.rank :=
            hacc g0 (by simp [bestFact, hacc2, hlt])
          exact le_trans (Nat.le_of_not_lt hlt) hg0
    refine ⟨fun g hg => ?_, fun g hg => ?_⟩
    · rcases List.mem_cons.mp hg with hg | hg
      · exact hg ▸ harank
      · exact htail g hg
    · cases hacc2 : acc with
      | none => rw [hacc2] at hg; cases hg
      | some g0 =>
        rw [hacc2] at hg
        cases hg
        by_cases hlt : g.confidence.rank < a.confidence.rank
        · exact le_trans (Nat.le_of_lt hlt) harank
        · exact hacc g (by simp [bestFact, hacc2, hlt])

/-- C2: when two detectors produce a value for the same key, the final
Fact Store value is the higher-confidence detector's output and ties keep
the first-registered writer (first conjunct); in general the stored fact
for any key is the conflict-policy winner over the write sequence (second
conjunct); and a stored fact's confidence is never below that of any
other fact written for the same key, so higher-confidence facts are never
overwritten by lower-confidence ones (third conjunct). -/
theorem claim_c2_confidence_ordering :
    (∀ (k : String) (v1 v2 : FactValue) (c1 c2 : Confidence) (s1 s2 : String),
      lookupFact (runFacts [⟨k, v1, c1, s1⟩, ⟨k, v2, c2, s2⟩]) k =
        some (if c1.rank < c2.rank then ⟨k, v2, c2, s2⟩ else ⟨k, v1, c1, s1⟩))
    ∧ (∀ fs k, lookupFact (runFacts fs) k = winner fs k)
    ∧ (∀ fs k f, lookupFact (runFacts fs) k = some f →
        ∀ g ∈ fs, g.key = k → g.confidence.rank ≤ f.confidence.rank) := by
  refine ⟨fun k v1 v2 c1 c2 s1 s2 => ?_, lookupFact_runFacts, fun fs k f hf g hg hk => ?_⟩
  · rw [lookupFact_runFacts]
    by_cases hlt : c1.rank < c2.rank
    · simp [winner, bestFact, hlt]
    · simp [winner, bestFact, hlt]
  · rw [lookupFact_runFacts] at hf
    have hmem : g ∈ fs.filter (fun f => f.key == k) :=
      List.mem_filter.mpr ⟨hg, by simpa using hk⟩
    exact (foldl_bestFact_max hf).1 g hmem

theorem claim_c2_confidence_ordering_witness :
    lookupFact
        (runFacts
          [⟨"language.primary", FactValue.str "TypeScript", Confidence.high, "tsconfig.json"⟩,
           ⟨"language.primary", FactValue.str "JavaScript", Confidence.medium, "prose"⟩])
        "language.primary" =
      some ⟨"language.primary", FactValue.str "TypeScript", Confidence.high, "tsconfig.json"⟩ ∧
    Confidence.rank Confidence.medium ≤ Confidence.rank Confidence.high :=
  ⟨by decide,
   claim_c2_confidence_ordering.2.2
     [⟨"language.primary", FactValue.str "TypeScript", Confidence.high, "tsconfig.json"⟩,
      ⟨"language.primary", FactValue.str "JavaScript", Confidence.medium, "prose"⟩]
     "language.primary"
     ⟨"language.primary", FactValue.str "TypeScript", Confidence.high, "tsconfig.json"⟩
     (by decide)
     ⟨"language.primary", FactValue.str "JavaScript", Confidence.medium, "prose"⟩
     (by decide) (by decide)⟩

/-! ## Workflow Engine

Modelled from the spec: a state machine over a fixed ordered Step list.
Each step runs its action; on success it is marked `completed`; on failure
a `blocking` step halts the run (later steps stay `pending`, the manifest
is persisted), while a `non-blocking` step is marked `failed` and the run
proceeds ("Continues even on failure (non-blocking)" in the environment
setup instructions; "Project failures are blocking: stop and report" in
the bootstrap entry document). -/

/-- Status of a workflow step as recorded in the manifest. -/
inductive StepStatus where
  | pending : StepStatus
  | completed : StepStatus
  | skipped : StepStatus
  | failed : StepStatus
deriving DecidableEq

/-- A declared workflow step: name plus its static blocking policy. -/
structure Step where
  name : String
  blocking : Bool
deriving DecidableEq

/-- Execute the declared steps in order from position `i`, with `act j`
telling whether the action of the step at position `j` succeeds.  A
blocking failure halts the run: the remaining steps keep status
`pending`.  A non-blocking failure is recorded and the run proceeds. -/
def runFrom (act : Nat → Bool) : List Step → Nat → List StepStatus
  | [], _ => []
  | s :: rest, i =>
    if act i then StepStatus.completed :: runFrom act rest (i + 1)
    else if s.blocking then
      StepStatus.failed :: rest.map (fun _ => StepStatus.pending)
    else StepStatus.failed :: runFrom act rest (i + 1)

/-- A full run over the declared step list. -/
def runSteps (act : Nat → Bool) (steps : List Step) : List StepStatus :=
  runFrom act steps 0

theorem runFrom_all_success {act : Nat → Bool} (steps : List Step) (i : Nat)
    (h : ∀ j, i ≤ j → act j = true) :
    runFrom act steps i = steps.map (fun _ => StepStatus.completed) := by
  induction steps generalizing i with
  | nil => rfl
  | cons s rest ih =>
    rw [runFrom, if_pos (h i (le_refl i))]
    rw [ih (i + 1) (fun j hj => h j (Nat.le_of_succ_le hj))]
    rfl

theorem runFrom_append_success {act : Nat → Bool} (pre rest : List Step) (i : Nat)
    (h : ∀ j, i ≤ j → j < i + pre.length → act j = true) :
    runFrom act (pre ++ rest) i =
      pre.map (fun _ => StepStatus.completed) ++ runFrom act rest (i + pre.length) := by
  induction pre generalizing i with
  | nil => simp
  | cons s pr ih =>
    rw [List.cons_append, runFrom,
      if_pos (h i (le_refl i) (by simp [Nat.lt_add_of_pos_right, Nat.succ_pos]))]
    rw [ih (i + 1) (fun j hj1 hj2 => h j (Nat.le_of_succ_le hj1)
      (by simpa [Nat.add_comm, Nat.add_assoc, Nat.add_left_comm] using hj2))]
    simp [Nat.add_comm, Nat.add_assoc, Nat.add_left_comm]

/-- C3: in any run where exactly the step at position `pre.length` fails,
a blocking declaration halts the run with every later step left pending
(never executed), while a non-blocking declaration lets every subsequent
step execute (to completion, since their actions succeed). -/
theorem claim_c3_blocking_vs_nonblocking (pre post : List Step) (s : Step)
    (act : Nat → Bool)
    (hpre : ∀ j, j < pre.length → act j = true)
    (hfail : act pre.length = false)
    (hpost : ∀ j, pre.length < j → act j = true) :
    runSteps act (pre ++ s :: post) =
      pre.map (fun _ => StepStatus.completed) ++
        StepStatus.failed ::
          (if s.blocking then post.map (fun _ => StepStatus.pending)
           else post.map (fun _ => StepStatus.completed)) := by
  unfold runSteps
  rw [runFrom_append_success pre (s :: post) 0
    (fun j hj1 hj2 => hpre j (by simpa using hj2))]
  rw [Nat.zero_add]
  rw [runFrom, if_neg (by simp [hfail])]
  by_cases hb : s.blocking = true
  · rw [if_pos hb, if_pos hb]
  · rw [if_neg hb, if_neg hb]
    rw [runFrom_all_success post (pre.length + 1)
      (fun j hj => hpost j (Nat.lt_of_succ_le hj))]

theorem claim_c3_blocking_vs_nonblocking_witness :
    runSteps (fun j => j != 1)
        ([⟨"analyze", true⟩] ++ ⟨"serena", false⟩ :: [⟨"claude-md", true⟩, ⟨"docs", false⟩]) =
      [StepStatus.completed, StepStatus.failed, StepStatus.completed,
        StepStatus.completed] := by
  have h := claim_c3_blocking_vs_nonblocking [⟨"analyze", true⟩]
    [⟨"claude-md", true⟩, ⟨"docs", false⟩] ⟨"serena", false⟩ (fun j => j != 1)
    (by
      intro j hj
      simp only [List.length_cons, List.length_nil] at hj
      have hj0 : j = 0 := by omega
      subst hj0
      rfl)
    (by rfl)
    (by
      intro j hj
      simp only [List.length_cons, List.length_nil] at hj
      simp only [bne_iff_ne, ne_eq]
      omega)
  simpa using h

/-! ## Resumption

Modelled from the spec: on start the engine loads the manifest if present;
any step already recorded `completed` is skipped without re-execution and
the first non-completed step becomes current ("Safe to re-runs: skip
completed steps" in the bootstrap state management section; "Check if
components installed → skip" in the environment setup instructions). -/

/-- Resume a run against a loaded manifest.  Besides the resulting
statuses, the second component records the positions whose action was
actually invoked (executed steps).  A position whose manifest entry is
`completed` is skipped without invoking its action; missing manifest
entries count as `pending`. -/
def resumeFrom (act : Nat → Bool) : List Step → List StepStatus → Nat →
    List StepStatus × List Nat
  | [], _, _ => ([], [])
  | s :: rest, manifest, i =>
    if manifest.headD StepStatus.pending = StepStatus.completed then
      let r := resumeFrom act rest manifest.tail (i + 1)
      (StepStatus.completed :: r.1, r.2)
    else if act i then
      let r := resumeFrom act rest manifest.tail (i + 1)
      (StepStatus.completed :: r.1, i :: r.2)
    else if s.blocking then
      (StepStatus.failed :: rest.map (fun _ => StepStatus.pending), [i])
    else
      let r := resumeFrom act rest manifest.tail (i + 1)
      (StepStatus.failed :: r.1, i :: r.2)

/-- Resume a full run against a manifest. -/
def resumeRun (act : Nat → Bool) (steps : List Step)
    (manifest : List StepStatus) : List StepStatus × List Nat :=
  resumeFrom act steps manifest 0

theorem resumeFrom_exec_ge {act : Nat → Bool} :
    ∀ (steps : List Step) (m : List StepStatus) (i j : Nat),
      j ∈ (resumeFrom act steps m i).2 → i ≤ j := by
  intro steps
  induction steps with
  | nil => intro m i j hj; simp [resumeFrom] at hj
  | cons s rest ih =>
    intro m i j hj
    by_cases h1 : m.headD StepStatus.pending = StepStatus.completed
    · rw [resumeFrom, if_pos h1] at hj
      exact Nat.le_of_succ_le (ih m.tail (i + 1) j hj)
    · rw [resumeFrom, if_neg h1] at hj
      by_cases h2 : act i = true
      · rw [if_pos h2] at hj
        rcases List.mem_cons.mp hj with hj | hj
        · exact hj ▸ le_refl i
        · exact Nat.le_of_succ_le (ih m.tail (i + 1) j hj)
      · rw [if_neg h2] at hj
        by_cases h3 : s.blocking = true
        · rw [if_pos h3] at hj
          simp only [List.mem_singleton] at hj
          exact hj ▸ le_refl i
        · rw [if_neg h3] at hj
          rcases List.mem_cons.mp hj with hj | hj
          · exact hj ▸ le_refl i
          · exact Nat.le_of_succ_le (ih m.tail (i + 1) j hj)

theorem resumeFrom_exec_ge_of_completed {act : Nat → Bool} :
    ∀ (K : Nat) (steps : List Step) (m' : List StepStatus) (i j : Nat),
      j ∈ (resumeFrom act steps (List.replicate K StepStatus.completed ++ m') i).2 →
        i + K ≤ j := by
  intro K
  induction K with
  | zero =>
    intro steps m' i j hj
    simpa using resumeFrom_exec_ge steps m' i j (by simpa using hj)
  | succ K ih =>
    intro steps m' i j hj
    cases steps with
    | nil => simp [resumeFrom] at hj
    | cons s rest =>
      rw [List.replicate_succ, List.cons_append] at hj
      rw [resumeFrom, if_pos (by simp)] at hj
      have := ih rest m' (i + 1) j (by simpa using hj)
      omega

theorem resumeFrom_pending_success {act : Nat → Bool}
    (hsucc : ∀ j, act j = true) :
    ∀ (steps : List Step) (i : Nat),
      resumeFrom act steps (List.replicate steps.length StepStatus.pending) i =
        (steps.map (fun _ => StepStatus.completed), List.range' i steps.length) := by
  intro steps
  induction steps with
  | nil => intro i; rfl
  | cons s rest ih =>
    intro i
    rw [List.length_cons, List.replicate_succ]
    rw [resumeFrom, if_neg (by simp), if_pos (hsucc i)]
    simp only [List.tail_cons, List.headD_cons]
    rw [ih (i + 1)]
    rfl

theorem resumeFrom_skip_completed {act : Nat → Bool}
    (hsucc : ∀ j, act j = true) :
    ∀ (K : Nat) (steps : List Step) (i : Nat), K ≤ steps.length →
      resumeFrom act steps
          (List.replicate K StepStatus.completed ++
            List.replicate (steps.length - K) StepStatus.pending) i =
        (steps.map (fun _ => StepStatus.completed),
          List.range' (i + K) (steps.length - K)) := by
  intro K
  induction K with
  | zero =>
    intro steps i _
    simpa using resumeFrom_pending_success hsucc steps i
  | succ K ih =>
    intro steps i hK
    cases steps with
    | nil => simp at hK
    | cons s rest =>
      have hK' : K ≤ rest.length := by simpa [Nat.succ_le_succ_iff] using hK
      rw [List.replicate_succ, List.cons_append]
      rw [resumeFrom, if_pos (by simp)]
      simp only [List.tail_cons, List.headD_cons]
      have hlen : (s :: rest).length - (K + 1) = rest.length - K := by
        simp [List.length_cons]
      rw [hlen, ih rest (i + 1) hK']
      have harith : i + 1 + K = i + (K + 1) := by omega
      rw [harith]
      rfl

/-- C4: resuming against a manifest whose first `K` steps are recorded
`completed` (and the rest `pending`) executes exactly the steps at
positions `K, K+1, ..., N-1` — i.e. steps K+1..N in 1-based counting —
and ends with every step completed (first two conjuncts, actions
succeeding); and against any manifest starting with `K` `completed`
entries, no step among the first `K` is ever re-executed (third
conjunct). -/
theorem claim_c4_resumption (act : Nat → Bool) (steps : List Step) (K : Nat)
    (hK : K ≤ steps.length) (hsucc : ∀ j, act j = true) :
    ((resumeRun act steps
          (List.replicate K StepStatus.completed ++
            List.replicate (steps.length - K) StepStatus.pending)).2 =
        List.range' K (steps.length - K))
    ∧ ((resumeRun act steps
          (List.replicate K StepStatus.completed ++
            List.replicate (steps.length - K) StepStatus.pending)).1 =
        steps.map (fun _ => StepStatus.completed))
    ∧ (∀ (m' : List StepStatus) (j : Nat),
        j ∈ (resumeRun act steps (List.replicate K StepStatus.completed ++ m')).2 →
          K ≤ j) := by
  refine ⟨?_, ?_, ?_⟩
  · unfold resumeRun
    rw [resumeFrom_skip_completed hsucc K steps 0 hK]
    simp
  · unfold resumeRun
    rw [resumeFrom_skip_completed hsucc K steps 0 hK]
  · intro m' j hj
    simpa using resumeFrom_exec_ge_of_completed K steps m' 0 j hj

theorem claim_c4_resumption_witness :
    (2 : Nat) ≤ ([⟨"analyze", true⟩, ⟨"serena", false⟩, ⟨"claude-md", true⟩,
        ⟨"verify", true⟩] : List Step).length ∧
      (resumeRun (fun _ => true)
          [⟨"analyze", true⟩, ⟨"serena", false⟩, ⟨"claude-md", true⟩, ⟨"verify", true⟩]
          (List.replicate 2 StepStatus.completed ++
            List.replicate 2 StepStatus.pending)).2 = [2, 3] := by
  have h := claim_c4_resumption (fun _ => true)
    [⟨"analyze", true⟩, ⟨"serena", false⟩, ⟨"claude-md", true⟩, ⟨"verify", true⟩]
    2 (by decide) (fun _ => rfl)
  refine ⟨by decide, ?_⟩
  have h1 := h.1
  simpa using h1

/-! ## Verification pass (06-verify-installation.md)

The procedure checks that the generated files exist, that CLAUDE.md is
non-empty with no unresolved placeholders, and then — step 4, "Update
Manifest" — writes verification results into
`.claude-bootstrap/manifest.json`.  The file system is modelled as a map
from paths to file contents. -/

/-- Required generated files (the table of step 1). -/
def requiredFiles : List String :=
  ["CLAUDE.md", "claude-docs/README.md", "claude-docs/tdd-enforcement.md",
   "claude-docs/code-quality.md", "claude-docs/research-workflow.md",
   "docs/adrs/README.md", "docs/adrs/000-template.md",
   ".claude-bootstrap/analysis.json", ".claude-bootstrap/manifest.json"]

/-- Path of the bootstrap manifest. -/
def manifestPath : String := ".claude-bootstrap/manifest.json"

/-- Step 1: every required file exists, and CLAUDE.md is non-empty. -/
def checkRequiredFiles (fs : String → Option String) : Bool :=
  requiredFiles.all (fun p =>
    match fs p with
    | some c => p != "CLAUDE.md" || c != ""
    | none => false)

/-- Whether a text still contains an unresolved placeholder opener. -/
def hasPlaceholder (c : String) : Bool := (c.splitOn "\x7b\x7b").length != 1

/-- Step 2: CLAUDE.md exists and has no unresolved placeholders. -/
def checkClaudeMd (fs : String → Option String) : Bool :=
  match fs "CLAUDE.md" with
  | some c => !(hasPlaceholder c)
  | none => false

/-- Three-level verification outcome.  Modelled from the spec: `passed`,
`warning`, `failed`. -/
inductive ReportLevel where
  | passed : ReportLevel
  | warning : ReportLevel
  | failed : ReportLevel
deriving DecidableEq

/-- The structured verification report. -/
structure VerifyReport where
  filesOk : Bool
  claudeMdOk : Bool
  level : ReportLevel
deriving DecidableEq

/-- Step 4 serialization: the manifest content written by "Update
Manifest" (completion timestamp plus the verification block). -/
def renderManifest (filesOk claudeMdOk : Bool) (now : String) : String :=
  "bootstrap_version 1.0.0; completed_at " ++ now ++
    "; verification.files_created " ++ (if filesOk then "true" else "false") ++
    "; verification.claude_md_valid " ++ (if claudeMdOk then "true" else "false") ++
    "; verified_at " ++ now

/-- The verification procedure: compute the report from the target tree,
then update the manifest file with the verification results (step 4).
Returns the resulting file system and the report. -/
def verifyProcedure (fs : String → Option String) (now : String) :
    (String → Option String) × VerifyReport :=
  let filesOk := checkRequiredFiles fs
  let claudeMdOk := checkClaudeMd fs
  let level :=
    if !filesOk then ReportLevel.failed
    else if !claudeMdOk then ReportLevel.warning
    else ReportLevel.passed
  (fun p =>
    if p = manifestPath then some (renderManifest filesOk claudeMdOk now)
    else fs p,
   ⟨filesOk, claudeMdOk, level⟩)

/-- A concrete post-bootstrap target tree whose manifest still records
`completed_at null`. -/
def fsAfterBootstrap : String → Option String := fun p =>
  if p = ".claude-bootstrap/manifest.json" then
    some "bootstrap_version 1.0.0; completed_at null"
  else if p ∈ requiredFiles then some "# ok"
  else none

/-- C5 counterexample: verification is not read-only — running the
verification procedure on a concrete bootstrapped tree changes the
manifest file's bytes (step 4 "Update Manifest" writes verification
results into it), contradicting the claim that every file, including the
manifest, stays byte-identical. -/
theorem claim_c5_counterexample :
    (verifyProcedure fsAfterBootstrap "2024-01-15T10:45:00Z").1 manifestPath ≠
      fsAfterBootstrap manifestPath := by
  decide

/-- C5 amended: verification computes the three-level report without
touching any file other than the manifest; the only write is the step-4
manifest update, whose content is the rendered verification result. -/
theorem claim_c5_verification_frame (fs : String → Option String) (now : String) :
    (∀ p, p ≠ manifestPath → (verifyProcedure fs now).1 p = fs p)
    ∧ (verifyProcedure fs now).1 manifestPath =
        some (renderManifest (checkRequiredFiles fs) (checkClaudeMd fs) now)
    ∧ (verifyProcedure fs now).2.level =
        (if !(checkRequiredFiles fs) then ReportLevel.failed
         else if !(checkClaudeMd fs) then ReportLevel.warning
         else ReportLevel.passed) := by
  refine ⟨fun p hp => ?_, ?_, ?_⟩
  · simp [verifyProcedure, hp]
  · simp [verifyProcedure, manifestPath]
  · simp [verifyProcedure]

theorem claim_c5_verification_frame_witness :
    ("CLAUDE.md" : String) ≠ manifestPath ∧
      (verifyProcedure fsAfterBootstrap "2024-01-15T10:45:00Z").1 "CLAUDE.md" =
        fsAfterBootstrap "CLAUDE.md" :=
  ⟨by decide,
   (claim_c5_verification_frame fsAfterBootstrap "2024-01-15T10:45:00Z").1
     "CLAUDE.md" (by decide)⟩

/-! ## Renderer: placeholders and conditional blocks

Template text is tokenized into literal text, `\x7b\x7bkey\x7d\x7d`
placeholders, and conditional delimiters
`\x7b\x7b#if key\x7d\x7d` / `\x7b\x7belse\x7d\x7d` / `\x7b\x7b/if\x7d\x7d`
(03-generate-claude-md.md, Conditional Processing).  Modelled from the
spec: conditional blocks are evaluated on truthiness of the referenced
fact, missing facts are falsy, nesting is supported to one level, and
deeper nesting is rejected at template-load time as a fatal
template-authoring error. -/

/-- A template token. -/
inductive Tok where
  | text : String → Tok
  | var : String → Tok
  | ifStart : String → Tok
  | elseTok : Tok
  | ifEnd : Tok
deriving DecidableEq

/-- Truthiness of a referenced fact: missing facts are falsy, booleans by
value, strings when non-empty, lists always (JS-style), null falsy. -/
def truthy : Option FactValue → Bool
  | none => false
  | some (FactValue.str s) => s != ""
  | some (FactValue.bool b) => b
  | some (FactValue.list _) => true
  | some FactValue.null => false

/-- Load-time scan, carrying the current conditional depth: rejects an
`if` opener that would nest deeper than one level (depth 2), an
`else`/`end` outside any block, and unbalanced blocks. -/
def nestOk : List Tok → Nat → Bool
  | [], d => d == 0
  | Tok.ifStart _ :: rest, d => decide (d < 2) && nestOk rest (d + 1)
  | Tok.ifEnd :: rest, d => decide (0 < d) && nestOk rest (d - 1)
  | Tok.elseTok :: rest, d => decide (0 < d) && nestOk rest d
  | Tok.text _ :: rest, d => nestOk rest d
  | Tok.var _ :: rest, d => nestOk rest d

/-- Well-bracketing of conditional delimiters, without the depth cap. -/
def balanced : List Tok → Nat → Bool
  | [], d => d == 0
  | Tok.ifStart _ :: rest, d => balanced rest (d + 1)
  | Tok.ifEnd :: rest, d => decide (0 < d) && balanced rest (d - 1)
  | Tok.elseTok :: rest, d => decide (0 < d) && balanced rest d
  | Tok.text _ :: rest, d => balanced rest d
  | Tok.var _ :: rest, d => balanced rest d

/-- Maximal conditional depth reached, starting from depth `d`. -/
def maxDepth : List Tok → Nat → Nat
  | [], _ => 0
  | Tok.ifStart _ :: rest, d => max (d + 1) (maxDepth rest (d + 1))
  | Tok.ifEnd :: rest, d => maxDepth rest (d - 1)
  | Tok.elseTok :: rest, d => maxDepth rest d
  | Tok.text _ :: rest, d => maxDepth rest d
  | Tok.var _ :: rest, d => maxDepth rest d

/-- Template loading: the nesting/balance scan runs before any workflow
step consumes the template; a violation is a fatal TemplateError, the
template is never executed. -/
def loadTemplate (t : List Tok) : Except String (List Tok) :=
  if nestOk t 0 then Except.ok t
  else Except.error "TemplateError: conditional blocks nested deeper than one level"

/-- Stringification of a fact value for placeholder substitution; an
absent fact renders as a visible unresolved marker. -/
def valueStr (v : Option FactValue) (k : String) : String :=
  match v with
  | some (FactValue.str s) => s
  | some (FactValue.bool b) => if b then "true" else "false"
  | some (FactValue.list l) => String.intercalate ", " l
  | some FactValue.null => ""
  | none => "UNRESOLVED(" ++ k ++ ")"

/-- Single left-to-right rendering pass.  The stack holds the truth value
of each open conditional block (head innermost); text is kept only when
every enclosing block is selected, and the delimiters themselves are
stripped from output. -/
def renderToks (facts : String → Option FactValue) :
    List Tok → List Bool → String
  | [], _ => ""
  | Tok.text s :: rest, stk =>
    (if stk.all id then s else "") ++ renderToks facts rest stk
  | Tok.var k :: rest, stk =>
    (if stk.all id then valueStr (facts k) k else "") ++ renderToks facts rest stk
  | Tok.ifStart k :: rest, stk => renderToks facts rest (truthy (facts k) :: stk)
  | Tok.elseTok :: rest, stk =>
    match stk with
    | b :: stk2 => renderToks facts rest ((!b) :: stk2)
    | [] => renderToks facts rest []
  | Tok.ifEnd :: rest, stk => renderToks facts rest stk.tail

theorem nestOk_eq_balanced_and_depth :
    ∀ (t : List Tok) (d : Nat),
      nestOk t d = (balanced t d && decide (maxDepth t d ≤ 2)) := by
  intro t
  induction t with
  | nil => intro d; simp [nestOk, balanced, maxDepth]
  | cons tok rest ih =>
    intro d
    cases tok with
    | text s => simpa [nestOk, balanced, maxDepth] using ih d
    | var k => simpa [nestOk, balanced, maxDepth] using ih d
    | ifStart k =>
      simp only [nestOk, balanced, maxDepth, ih (d + 1)]
      by_cases h1 : d < 2
      · have h2 : d + 1 ≤ 2 := h1
        simp [h1, Nat.max_le, h2]
      · have h2 : ¬(d + 1 ≤ 2) := h1
        simp [h1, Nat.max_le, h2]
    | ifEnd =>
      simp only [nestOk, balanced, maxDepth, ih (d - 1), Bool.and_assoc]
    | elseTok =>
      simp only [nestOk, balanced, maxDepth, ih d, Bool.and_assoc]

/-- C7: for balanced templates the loader accepts exactly the templates
whose conditional nesting stays within one level (depth at most 2), and
an accepted template is passed through unchanged to rendering (first two
conjuncts); rendering a one-level-nested conditional template yields the
branch contents selected by truthiness with all delimiters stripped
(third conjunct).  Rejection happens in `loadTemplate`, before any
workflow step runs, as a fatal TemplateError. -/
theorem claim_c7_conditional_nesting :
    (∀ t : List Tok, balanced t 0 = true →
      ((loadTemplate t).isOk = true ↔ maxDepth t 0 ≤ 2))
    ∧ (∀ t : List Tok, balanced t 0 = true → maxDepth t 0 ≤ 2 →
        loadTemplate t = Except.ok t)
    ∧ (∀ (facts : String → Option FactValue) (k1 k2 a b c : String),
        renderToks facts
          [Tok.ifStart k1, Tok.text a, Tok.ifStart k2, Tok.text b, Tok.ifEnd,
           Tok.text c, Tok.ifEnd] [] =
          (if truthy (facts k1) then
            a ++ ((if truthy (facts k2) then b else "") ++ c)
          else "")) := by
  refine ⟨fun t hbal => ?_, fun t hbal hdep => ?_, fun facts k1 k2 a b c => ?_⟩
  · rw [loadTemplate]
    rw [nestOk_eq_balanced_and_depth t 0, hbal]
    by_cases hdep : maxDepth t 0 ≤ 2
    · simp [hdep, Except.isOk, Except.toBool]
    · simp [hdep, Except.isOk, Except.toBool]
  · rw [loadTemplate]
    rw [nestOk_eq_balanced_and_depth t 0, hbal]
    simp [hdep]
  · cases ht1 : truthy (facts k1) with
    | false =>
      cases ht2 : truthy (facts k2) with
      | true => simp [renderToks, ht1, ht2]
      | false => simp [renderToks, ht1, ht2]
    | true =>
      cases ht2 : truthy (facts k2) with
      | true => simp [renderToks, ht1, ht2]
      | false => simp [renderToks, ht1, ht2]

theorem claim_c7_conditional_nesting_witness :
    balanced
        [Tok.ifStart "has_tests", Tok.ifStart "is_monorepo",
         Tok.ifStart "language_typescript", Tok.text "x", Tok.ifEnd, Tok.ifEnd,
         Tok.ifEnd] 0 = true ∧
      ((loadTemplate
          [Tok.ifStart "has_tests", Tok.ifStart "is_monorepo",
           Tok.ifStart "language_typescript", Tok.text "x", Tok.ifEnd, Tok.ifEnd,
           Tok.ifEnd]).isOk = true ↔
        maxDepth
          [Tok.ifStart "has_tests", Tok.ifStart "is_monorepo",
           Tok.ifStart "language_typescript", Tok.text "x", Tok.ifEnd, Tok.ifEnd,
           Tok.ifEnd] 0 ≤ 2) :=
  ⟨by decide,
   claim_c7_conditional_nesting.1
     [Tok.ifStart "has_tests", Tok.ifStart "is_monorepo",
      Tok.ifStart "language_typescript", Tok.text "x", Tok.ifEnd, Tok.ifEnd,
      Tok.ifEnd] (by decide)⟩

/-! ## Discovery failure semantics

Modelled from the spec: the Discovery Engine runs an ordered list of
detectors; a detector that throws is caught at the Discovery layer,
recorded as a non-fatal finding, and contributes no facts for that run
("Discovery Cannot Determine Value → leave as null/empty, continue" and
the other recovery rules of 00-analyze-project.md, If This Step Fails).
A detector run is embedded as an `Except`: `ok` with its produced facts,
or `error` with the thrown message. -/

/-- Fold one detector outcome into the accumulated (facts, findings)
state: the catch converts an exception into a finding and drops the
detector's contribution. -/
def runDetector (acc : List Fact × List String) (d : Except String (List Fact)) :
    List Fact × List String :=
  match d with
  | Except.ok fs => (fs.foldl addFact acc.1, acc.2)
  | Except.error e => (acc.1, acc.2 ++ [e])

/-- Discovery over the ordered detector list: always returns a Fact Store
and the list of non-fatal findings. -/
def discover (ds : List (Except String (List Fact))) : List Fact × List String :=
  ds.foldl runDetector ([], [])

/-- Facts of the detectors that did not throw, in registration order. -/
def okFacts : List (Except String (List Fact)) → List Fact
  | [] => []
  | Except.ok fs :: rest => fs ++ okFacts rest
  | Except.error _ :: rest => okFacts rest

/-- Messages of the detectors that threw, in registration order. -/
def errorsOf : List (Except String (List Fact)) → List String
  | [] => []
  | Except.ok _ :: rest => errorsOf rest
  | Except.error e :: rest => e :: errorsOf rest

theorem discover_foldl (ds : List (Except String (List Fact))) :
    ∀ acc : List Fact × List String,
      ds.foldl runDetector acc =
        ((okFacts ds).foldl addFact acc.1, acc.2 ++ errorsOf ds) := by
  induction ds with
  | nil => intro acc; simp [okFacts, errorsOf]
  | cons d rest ih =>
    intro acc
    cases d with
    | ok fs =>
      rw [List.foldl_cons]
      rw [ih (runDetector acc (Except.ok fs))]
      simp [runDetector, okFacts, errorsOf, List.foldl_append]
    | error e =>
      rw [List.foldl_cons]
      rw [ih (runDetector acc (Except.error e))]
      simp [runDetector, okFacts, errorsOf]

/-- C8: the Fact Store produced by Discovery equals the store built from
the non-throwing detectors alone — a throwing detector's facts are
excluded (first conjunct); every thrown error is caught and recorded as a
non-fatal finding in the report (second and third conjuncts), and
Discovery always returns this (store, findings) report, so the workflow
proceeds to subsequent steps regardless of detector failures. -/
theorem claim_c8_detector_isolation (ds : List (Except String (List Fact))) :
    ((discover ds).1 = runFacts (okFacts ds))
    ∧ ((discover ds).2 = errorsOf ds)
    ∧ (∀ e, Except.error e ∈ ds → e ∈ (discover ds).2) := by
  have h := discover_foldl ds ([], [])
  refine ⟨?_, ?_, ?_⟩
  · rw [discover, h]
    simp [runFacts]
  · rw [discover, h]
    simp
  · intro e he
    rw [discover, h]
    simp only [List.nil_append]
    induction ds with
    | nil => simp at he
    | cons d rest ih =>
      rcases List.mem_cons.mp he with hd | hd
      · rw [← hd]
        simp [errorsOf]
      · cases d with
        | ok fs => simpa [errorsOf] using ih (discover_foldl rest ([], [])) hd
        | error e2 =>
          simp only [errorsOf, List.mem_cons]
          exact Or.inr (ih (discover_foldl rest ([], [])) hd)

theorem claim_c8_detector_isolation_witness :
    Except.error "DetectorError: prose inference crashed" ∈
        ([Except.ok [⟨"language.primary", FactValue.str "Go", Confidence.high, "go.mod"⟩],
          Except.error "DetectorError: prose inference crashed"] :
          List (Except String (List Fact))) ∧
      "DetectorError: prose inference crashed" ∈
        (discover
          [Except.ok [⟨"language.primary", FactValue.str "Go", Confidence.high, "go.mod"⟩],
           Except.error "DetectorError: prose inference crashed"]).2 :=
  ⟨by simp,
   (claim_c8_detector_isolation
      [Except.ok [⟨"language.primary", FactValue.str "Go", Confidence.high, "go.mod"⟩],
       Except.error "DetectorError: prose inference crashed"]).2.2
     "DetectorError: prose inference crashed" (by simp)⟩

/-! ## Hook scripts (bootstrap/templates/hooks)

The hooks are Node scripts that buffer stdin, act inside try/catch, and
finish with `console.log(data)`.  Primitives that can throw in JavaScript
(`JSON.parse`, `execFileSync`, `execSync`, `readFileSync`) are embedded as
`Option`/`Except` parameters; the catch blocks of the scripts become the
corresponding case splits.  `console.log` output is collected as a list of
stdout lines. -/

/-- Parsed hook input of post-edit-format.js:
`input.tool_input?.file_path || ''`. -/
structure HookInput where
  filePath : String
deriving DecidableEq

/-- `path.extname(p).toLowerCase()`: the extension of the last path
segment, empty for dotfiles and extensionless names. -/
def extname (p : String) : String :=
  let base := (p.splitOn "/").getLastD ""
  let afterDot := (base.toList.reverse.takeWhile (fun c => c != '.')).reverse
  if afterDot.length = base.length then ""
  else if afterDot.length + 1 = base.length then ""
  else String.mk ('.' :: afterDot)

/-- The formatter table of post-edit-format.js: extension ↦ command and
arguments (the edited file path is appended to the arguments). -/
def formatterFor (ext : String) (filePath : String) :
    Option (String × List String) :=
  if ext = ".ts" ∨ ext = ".tsx" ∨ ext = ".js" ∨ ext = ".jsx" ∨ ext = ".json" ∨
      ext = ".css" then
    some ("npx", ["prettier", "--write", filePath])
  else if ext = ".py" then some ("ruff", ["format", filePath])
  else if ext = ".go" then some ("gofmt", ["-w", filePath])
  else none

/-- The stdin end handler of post-edit-format.js.  `parse` is the outcome
of `JSON.parse` on the buffered data (`none` = throw), `exec` the outcome
of `execFileSync` (`Except.error` = formatter missing/failed/timed out;
the inner catch swallows it).  Returns the stdout lines written and the
formatter invocation attempted, if any. -/
def postEditFormat (data : String) (parse : Option HookInput)
    (exec : String → List String → Except String Unit) :
    List String × Option (String × List String) :=
  let invoked :=
    match parse with
    | none => none
    | some input =>
      let ext := (extname input.filePath).toLower
      match formatterFor ext input.filePath with
      | none => none
      | some (cmd, args) =>
        match exec cmd args with
        | Except.ok _ => some (cmd, args)
        | Except.error _ => some (cmd, args)
  ([data], invoked)

/-- Extensions check-debug-statements.js has a debug pattern for. -/
def debugExts : List String :=
  [".ts", ".tsx", ".js", ".jsx", ".py", ".go", ".cs", ".java"]

/-- `'.' + file.split('.').pop()`. -/
def extOfFile (file : String) : String := "." ++ (file.splitOn ".").getLastD ""

/-- The issue lines collected by check-debug-statements.js for one file:
`file:line: trimmed-content` for every line matching the extension's
debug pattern (`test` is the regex tester). -/
def issuesForFile (test : String → String → Bool) (file : String)
    (content : String) : List String :=
  ((content.splitOn "\n").enum.filterMap fun li =>
    if test (extOfFile file) li.2 then
      some ("  " ++ file ++ ":" ++ toString (li.1 + 1) ++ ": " ++ li.2.trim)
    else none)

/-- The stdin end handler of check-debug-statements.js.  `gitOut` is the
outcome of `execSync` on the git diff command; `readFile` the outcome of
`readFileSync` per file; `test` the regex tester for the per-extension
debug patterns.  Returns (stdout lines, stderr lines): the early return
for an empty modified list, the outer catch, and the per-file catch all
funnel into a single `console.log(data)`. -/
def checkDebugStatements (data : String) (gitOut : Except String String)
    (readFile : String → Except String String)
    (test : String → String → Bool) : List String × List String :=
  match gitOut with
  | Except.error _ => ([data], [])
  | Except.ok raw =>
    let modified := raw.trim
    if modified = "" then ([data], [])
    else
      let files := (modified.splitOn "\n").filter (fun f => f.length > 0)
      let issues := files.foldl (fun acc file =>
        if debugExts.contains (extOfFile file) then
          match readFile file with
          | Except.error _ => acc
          | Except.ok content => acc ++ issuesForFile test file content
        else acc) []
      let errLines :=
        if issues.length > 0 then
          ["[Hook] Debug statements found in modified files:"] ++
            issues.take 10 ++
            (if issues.length > 10 then
              ["  ... and " ++ toString (issues.length - 10) ++ " more"]
            else []) ++
            ["[Hook] Remove before committing"]
        else []
      ([data], errLines)

/-- C9: both hook handlers terminate for every stdin input and every
outcome of their fallible primitives (invalid JSON, missing formatter,
formatter/git failure or timeout, unreadable file), and write the
original stdin data verbatim to stdout exactly once, so the hook pipeline
is never blocked. -/
theorem claim_c9_hooks_never_block :
    (∀ (data : String) (parse : Option HookInput)
        (exec : String → List String → Except String Unit),
      (postEditFormat data parse exec).1 = [data])
    ∧ (∀ (data : String) (gitOut : Except String String)
        (readFile : String → Except String String)
        (test : String → String → Bool),
      (checkDebugStatements data gitOut readFile test).1 = [data]) := by
  constructor
  · intro data parse exec
    cases parse with
    | none => rfl
    | some input => rfl
  · intro data gitOut readFile test
    cases gitOut with
    | error e => rfl
    | ok raw =>
      rw [checkDebugStatements]
      by_cases hm : raw.trim = ""
      · simp [hm]
      · simp [hm]

/-! ## session-end-summary.js

The Stop hook parses stdin, extracts learning signals from the transcript,
and only when at least one signal matched creates `ai-docs/`, prunes
entries older than 30 days from `ai-docs/learnings.md`, and appends a
timestamped entry.  The file system is a record of files and directories;
the regex tester and the computed cutoff date string are parameters. -/

/-- File system state seen by the hook: file contents by path, directory
existence by path. -/
structure SessFS where
  files : String → Option String
  dirs : String → Bool

/-- Parsed hook input: `transcript_summary` and `stop_reason`. -/
structure SessInput where
  transcriptSummary : Option String
  stopReason : Option String

/-- `LEARNINGS_FILE = path.join(cwd, 'ai-docs', 'learnings.md')`. -/
def learningsFile : String := "ai-docs/learnings.md"

/-- `path.dirname(LEARNINGS_FILE)`. -/
def learningsDir : String := "ai-docs"

/-- The header readExisting returns when the learnings file is absent. -/
def defaultHeader : String :=
  "# Session Learnings\n\nAuto-maintained by session hooks. Edit freely to curate.\n\n"

/-- JavaScript `a || b` over possibly-absent strings (empty is falsy). -/
def jsOr : Option String → String → String
  | some s, b => if s = "" then b else s
  | none, b => b

/-- The learning-signal patterns and their categories. -/
def sessPatterns : List (String × String) :=
  [("correct(ed|ion)|fix(ed)?|wrong|mistake|actually", "correction"),
   ("error|exception|fail(ed|ure)?|crash|bug", "error-resolved"),
   ("prefer|instead|better|use .+ rather", "preference"),
   ("pattern|approach|technique|strategy|convention", "pattern")]

/-- `extractLearnings`: an empty (falsy) transcript yields no learnings;
otherwise each pattern that tests positive contributes its category.
`ptest` embeds `regex.test`. -/
def extractLearnings (ptest : String → String → Bool) (transcript : String) :
    List String :=
  if transcript = "" then []
  else sessPatterns.filterMap
    (fun pc => if ptest pc.1 transcript then some pc.2 else none)

/-- Match of `^### (\d\d\d\d-\d\d-\d\d)` at the start of a line, returning
the captured date. -/
def dateHeading (line : String) : Option String :=
  match line.toList with
  | '#' :: '#' :: '#' :: ' ' :: a :: b :: c :: d :: '-' :: e :: f :: '-' :: g :: h :: _ =>
    if a.isDigit && b.isDigit && c.isDigit && d.isDigit && e.isDigit && f.isDigit &&
        g.isDigit && h.isDigit then
      some (String.mk [a, b, c, d, '-', e, f, '-', g, h])
    else none
  | _ => none

/-- The pruning scan of `pruneOldEntries`: a date heading older than the
cutoff starts skipping until the next heading; kept lines are collected. -/
def pruneAux (cutoff : String) : List String → Bool → List String
  | [], _ => []
  | l :: rest, skipping =>
    let skipping2 :=
      match dateHeading l with
      | some d => decide (d < cutoff)
      | none => skipping
    if skipping2 then pruneAux cutoff rest skipping2
    else l :: pruneAux cutoff rest skipping2

/-- `pruneOldEntries(content)` with the 30-day cutoff date string
precomputed (ISO dates compare lexicographically, as in the script). -/
def pruneOldEntries (cutoff content : String) : String :=
  String.intercalate "\n" (pruneAux cutoff (content.splitOn "\n") false)

/-- `[...new Set(categories)]`: deduplication keeping first occurrences. -/
def jsSetDedup : List String → List String
  | [] => []
  | x :: rest => x :: jsSetDedup (rest.filter (fun y => y != x))
termination_by l => l.length
decreasing_by
  simp only [List.length_cons]
  exact Nat.lt_succ_of_le (List.length_filter_le _ rest)

/-- `formatEntry`: the appended timestamped entry with its signal tags. -/
def formatEntry (date time : String) (learnings : List String) : String :=
  let tags :=
    String.intercalate " " ((jsSetDedup learnings).map (fun c => "`" ++ c ++ "`"))
  "### " ++ date ++ " " ++ time ++ "\n- Signals: " ++ tags ++
    "\n- _(Edit this entry to record what was learned)_\n\n"

/-- The stdin end handler of session-end-summary.js.  `parse` is the
outcome of `JSON.parse` (`none` = throw, caught by the outer catch);
`cutoff` is the precomputed 30-day cutoff date string; `date`/`time` the
current timestamp parts.  Returns the resulting file system and the
stdout lines. -/
def sessionEnd (fs : SessFS) (data : String) (parse : Option SessInput)
    (ptest : String → String → Bool) (cutoff date time : String) :
    SessFS × List String :=
  match parse with
  | none => (fs, [data])
  | some input =>
    let transcript := jsOr input.transcriptSummary (jsOr input.stopReason "")
    let learnings := extractLearnings ptest transcript
    if learnings.isEmpty then (fs, [data])
    else
      let fs1 : SessFS :=
        ⟨fs.files, fun d => if d = learningsDir then true else fs.dirs d⟩
      let existing :=
        match fs1.files learningsFile with
        | some c => c
        | none => defaultHeader
      let updated := pruneOldEntries cutoff existing
      let entry := formatEntry date time learnings
      (⟨fun p => if p = learningsFile then some (updated ++ entry) else fs1.files p,
        fs1.dirs⟩,
       [data])

/-- C10: the hook mutates the file system only when a learning signal
matched: an unparsable input or an empty learnings list (in particular an
empty or absent transcript, first conjunct) leaves the file system
untouched; when signals matched, the only file written is
ai-docs/learnings.md — whose new content is the prior content with
entries older than the cutoff pruned, followed by the new entry — the
only directory touched is ai-docs, and stdin is still echoed. -/
theorem claim_c10_session_end_frame :
    (∀ ptest, extractLearnings ptest "" = [])
    ∧ (∀ (fs : SessFS) (data : String) ptest cutoff date time,
        sessionEnd fs data none ptest cutoff date time = (fs, [data]))
    ∧ (∀ (fs : SessFS) (data : String) (input : SessInput) ptest cutoff date time,
        extractLearnings ptest
            (jsOr input.transcriptSummary (jsOr input.stopReason "")) = [] →
          sessionEnd fs data (some input) ptest cutoff date time = (fs, [data]))
    ∧ (∀ (fs : SessFS) (data : String) (input : SessInput) ptest cutoff date time,
        extractLearnings ptest
            (jsOr input.transcriptSummary (jsOr input.stopReason "")) ≠ [] →
          ((sessionEnd fs data (some input) ptest cutoff date time).1.files
              learningsFile =
            some (pruneOldEntries cutoff
                (match fs.files learningsFile with
                 | some c => c
                 | none => defaultHeader) ++
              formatEntry date time
                (extractLearnings ptest
                  (jsOr input.transcriptSummary (jsOr input.stopReason "")))))
          ∧ (∀ p, p ≠ learningsFile →
              (sessionEnd fs data (some input) ptest cutoff date time).1.files p =
                fs.files p)
          ∧ (∀ d, d ≠ learningsDir →
              (sessionEnd fs data (some input) ptest cutoff date time).1.dirs d =
                fs.dirs d)
          ∧ (sessionEnd fs data (some input) ptest cutoff date time).2 = [data]) := by
  refine ⟨fun ptest => rfl, fun fs data ptest cutoff date time => rfl,
    fun fs data input ptest cutoff date time h => ?_,
    fun fs data input ptest cutoff date time h => ?_⟩
  · simp [sessionEnd, h]
  · cases hL : extractLearnings ptest
      (jsOr input.transcriptSummary (jsOr input.stopReason "")) with
    | nil => exact absurd hL h
    | cons a t =>
      refine ⟨?_, fun p hp => ?_, fun d hd => ?_, ?_⟩
      · simp [sessionEnd, hL]
      · simp [sessionEnd, hL, hp]
      · simp [sessionEnd, hL, hd]
      · simp [sessionEnd, hL]

/-- A concrete learnings file with one stale and one recent entry. -/
def sessFsW : SessFS :=
  ⟨fun p =>
    if p = "ai-docs/learnings.md" then
      some "# Session Learnings\n\n### 2025-10-01 09:00\n- old\n\n### 2025-12-01 10:00\n- recent\n\n"
    else none,
   fun _ => false⟩

theorem claim_c10_session_end_frame_witness :
    extractLearnings (fun _ _ => true) (jsOr (some "fixed a bug") (jsOr none "")) ≠
        [] ∧
      (sessionEnd sessFsW "hook-data" (some ⟨some "fixed a bug", none⟩)
          (fun _ _ => true) "2025-11-20" "2025-12-20" "10:00").1.files "README.md" =
        sessFsW.files "README.md" :=
  ⟨by decide,
   ((claim_c10_session_end_frame).2.2.2 sessFsW "hook-data"
      ⟨some "fixed a bug", none⟩ (fun _ _ => true) "2025-11-20" "2025-12-20" "10:00"
      (by decide)).2.1 "README.md" (by decide)⟩
